import Mathlib

/-!
Shallow embedding of `src/lineup-substitution/lineup-substitution.c`
(gnome-c-utils): an alignment-aware search-and-replace over a text buffer.

The buffer is a flat list of Unicode codepoints (`List Char`), with `'\n'`
separating lines, mirroring the GtkTextBuffer character model.  Positions are
codepoint offsets.  Tab width is 8, as in the source (GtkSourceView default
used by `gtk_source_view_get_visual_column`).
-/

set_option linter.unusedVariables false

namespace LineupSub

/-- Model of `g_unichar_isspace`, restricted to the ASCII whitespace characters
(space, tab, newline, carriage return, vertical tab, form feed).  Exotic
Unicode space separators are not modelled. -/
def g_unichar_isspace (c : Char) : Bool :=
  c = ' ' || c = '\t' || c = '\n' || c = '\r' || c = '\x0b' || c = '\x0c'

/-- One step of `gtk_source_view_get_visual_column`: a tab advances to the
next multiple of 8, any other character advances by one column. -/
def vcolStep (col : Nat) (c : Char) : Nat :=
  if c = '\t' then col + (8 - col % 8) else col + 1

/-- Fold `vcolStep` over a list of characters starting from column `col`. -/
def vcolFold (col : Nat) : List Char → Nat
  | [] => col
  | c :: rest => vcolFold (vcolStep col c) rest

/-- The suffix of `l` after its last `'\n'` (all of `l` if there is none):
the current-line prefix used for visual-column computation. -/
def afterLastNl (l : List Char) : List Char :=
  l.foldl (fun acc c => if c = '\n' then [] else acc ++ [c]) []

/-- Model of `gtk_source_view_get_visual_column` at position `pos` of `buf`: fold over
the characters of `pos`'s line that precede `pos`, starting from column 0. -/
def visualColumn (buf : List Char) (pos : Nat) : Nat :=
  vcolFold 0 (afterLastNl (buf.take pos))

/-- Number of characters before the first `'\n'` of `l` (the whole length if
there is none). -/
def nlOffset : List Char → Nat
  | [] => 0
  | c :: rest => if c = '\n' then 0 else nlOffset rest + 1

/-- Model of `gtk_text_iter_forward_to_line_end` as an offset: position of the `'\n'`
terminating `pos`'s line, or `buf.length` on the last line. -/
def lineEnd (buf : List Char) (pos : Nat) : Nat :=
  pos + nlOffset (buf.drop pos)

/-- Model of `forward_iter_to_text_start` as an offset into a line: number of leading
characters that are whitespace, stopping at the line end (`'\n'`) or at the
first non-whitespace character. -/
def textStartOffset : List Char → Nat
  | [] => 0
  | c :: rest =>
    if c = '\n' then 0
    else if g_unichar_isspace c then textStartOffset rest + 1
    else 0

/-- Model of `get_text_start_column` for one line `l` (the line's characters, without
its terminating `'\n'`): `none` when the scan reaches the end of the line
(blank line), otherwise the visual column of the first non-whitespace
character. -/
def lineTextStartCol (l : List Char) : Option Nat :=
  let ts := textStartOffset l
  if ts = l.length ∨ l.get? ts = some '\n' then none
  else some (vcolFold 0 (l.take ts))

/-- Model of `indentation_contains_tab` for one line: scans the leading whitespace run
from the start of the line; true iff it contains a tab. -/
def indentHasTab : List Char → Bool
  | [] => false
  | c :: rest =>
    if c = '\n' then false
    else if c = '\t' then true
    else if g_unichar_isspace c then indentHasTab rest
    else false

/-- Offset of the first `'('` of `l` that occurs before any `'\n'`
(the in-line forward search of `get_parenthesis_column`). -/
def parenOffset : List Char → Option Nat
  | [] => none
  | c :: rest =>
    if c = '\n' then none
    else if c = '(' then some 0
    else (parenOffset rest).map (fun o => o + 1)

/-- Model of `get_parenthesis_column`: search forward from `pos`, within `pos`'s line
only, for the first `'('`; if found at `pos + o`, return the visual column of
the position immediately after it (the `match_end` of the `"("` search),
otherwise `none` (the C code returns -1). -/
def get_parenthesis_column (buf : List Char) (pos : Nat) : Option Nat :=
  (parenOffset (buf.drop pos)).map (fun o => visualColumn buf (pos + o + 1))

/-- Literal match test: does `s` occur at the head of `l`? -/
def matchAt : List Char → List Char → Bool
  | [], _ => true
  | _ :: _, [] => false
  | a :: xs, b :: ys => a = b && matchAt xs ys

/-- First offset `o` of `l` such that `s` occurs at `l.drop o`
(`gtk_text_iter_forward_search`, literal and case-sensitive). -/
def findFrom (s : List Char) : List Char → Option Nat
  | [] => if matchAt s [] then some 0 else none
  | c :: rest =>
    if matchAt s (c :: rest) then some 0
    else (findFrom s rest).map (fun o => o + 1)

/-- Model of `gtk_source_search_context_forward` from position `pos`: start position of
the first occurrence of `s` at or after `pos`, or `none`. -/
def findNext (buf : List Char) (pos : Nat) (s : List Char) : Option Nat :=
  (findFrom s (buf.drop pos)).map (fun o => pos + o)

/-- Model of `adjust_alignment` restricted to the line `l` it rewrites (the C function
edits only within the line its iterator starts).  `none` models the fatal
`g_assert` aborts: the line being blank, or the computed target indentation
width being negative.  Otherwise the entire leading-whitespace run is deleted
and replaced by fresh indentation of `new_length` visual columns: tabs plus
spaces when the line's own previous indentation contained a tab, spaces
only otherwise. -/
def adjustLine (search_text replacement : List Char) (l : List Char) : Option (List Char) :=
  let ts := textStartOffset l
  match lineTextStartCol l with
  | none => none
  | some col =>
    let new_length : Int := (col : Int) - (search_text.length : Int) + (replacement.length : Int)
    if new_length < 0 then none
    else
      let n := new_length.toNat
      let fresh_indent : List Char :=
        if indentHasTab l then
          List.replicate (n / 8) '\t' ++ List.replicate (n % 8) ' '
        else
          List.replicate n ' '
      some (fresh_indent ++ l.drop ts)

/-- Split a flat text into its lines (pieces between `'\n'` characters).
`"a\nb"` gives `[[a],[b]]`; a trailing `'\n'` yields a final empty line, as in
GtkTextBuffer's line model. -/
def splitLines : List Char → List (List Char)
  | [] => [[]]
  | c :: rest =>
    if c = '\n' then [] :: splitLines rest
    else
      match splitLines rest with
      | [] => [[c]]
      | l :: ls => (c :: l) :: ls

/-- Inverse of `splitLines`: join lines with `'\n'`. -/
def joinLines : List (List Char) → List Char
  | [] => []
  | [l] => l
  | l :: l2 :: ls => l ++ '\n' :: joinLines (l2 :: ls)

/-- The continuation-realignment loop of `replace` (lines 344-360 of the C
source), expressed over the list of lines that follow the match line: as long
as a line's first-non-whitespace visual column equals the anchor column `P`,
realign it with `adjustLine` and continue with the next line; the first line
whose column differs (including blank lines, whose column is `none`) stops
the loop, leaving it and all following lines untouched. -/
def alignLines (search_text replacement : List Char) (P : Nat) :
    List (List Char) → Option (List (List Char))
  | [] => some []
  | l :: rest =>
    if lineTextStartCol l = some P then
      match adjustLine search_text replacement l with
      | none => none
      | some l2 => (alignLines search_text replacement P rest).map (fun out => l2 :: out)
    else some (l :: rest)

/-- The buffer right after the plain substitution of the match at `m`
(before any realignment). -/
def bufAfter (search_text replacement buf : List Char) (m : Nat) : List Char :=
  buf.take m ++ replacement ++ buf.drop (m + search_text.length)

/-- The `replace` function of the C source, for the match of `search_text` at
offset `m`: record the anchor column from the pre-replacement text
(`get_parenthesis_column` is called before the substitution, line 329 of the
C source), perform the literal substitution (giving `bufAfter`), then realign
the following lines when an anchor was found.  The returned offset is the
position of the right-gravity mark: the end of the just-inserted replacement,
`m + replacement.length`.  The first following line exists when
`gtk_text_iter_forward_line` succeeds, i.e. when the match line's `'\n'` is
not the last buffer position.  `none` models the fatal error paths. -/
def replaceStep (search_text replacement : List Char) (buf : List Char) (m : Nat) :
    Option (List Char × Nat) :=
  if matchAt search_text (buf.drop m) then
    match get_parenthesis_column buf (m + search_text.length) with
    | none => some (bufAfter search_text replacement buf m, m + replacement.length)
    | some P =>
      if lineEnd (bufAfter search_text replacement buf m) (m + replacement.length) + 1
          < (bufAfter search_text replacement buf m).length then
        match alignLines search_text replacement P
            (splitLines ((bufAfter search_text replacement buf m).drop
              (lineEnd (bufAfter search_text replacement buf m) (m + replacement.length) + 1))) with
        | none => none
        | some out =>
          some ((bufAfter search_text replacement buf m).take
              (lineEnd (bufAfter search_text replacement buf m) (m + replacement.length) + 1)
            ++ joinLines out, m + replacement.length)
      else some (bufAfter search_text replacement buf m, m + replacement.length)
  else none

/-- Outcome of a complete run: the final buffer, or a fatal abort
(`g_error` / failed `g_assert`). -/
inductive RunOut
  | ok (buf : List Char)
  | aborted
deriving DecidableEq

/-- The `do_substitution` loop: find the next match from the cursor, replace
and realign it, set the cursor to the end of the inserted replacement, and
repeat.  `fuel` bounds the number of iterations; `none` means the fuel ran
out before the run finished. -/
def doSubLoop (search_text replacement : List Char) :
    Nat → List Char → Nat → Option RunOut
  | 0, _, _ => none
  | fuel + 1, buf, cursor =>
    match findNext buf cursor search_text with
    | none => some (RunOut.ok buf)
    | some m =>
      match replaceStep search_text replacement buf m with
      | none => some RunOut.aborted
      | some (buf2, c2) => doSubLoop search_text replacement fuel buf2 c2

/-- Model of `do_substitution`: run the loop from the start of the buffer. -/
def do_substitution (fuel : Nat) (search_text replacement buf : List Char) : Option RunOut :=
  doSubLoop search_text replacement fuel buf 0

/-- Observable outcome of one `main` invocation: process exit code, whether
the usage text was printed to standard error, and the content of the file
after the run. -/
structure MainResult where
  exitCode : Nat
  usageToStderr : Bool
  savedContent : List Char
deriving DecidableEq

/-- The `main` function: `args` are the positional arguments (`argc != 4` in
the C source means `args.length ≠ 3` here, since `argv[0]` is the program
name).  A wrong argument count prints usage to stderr and exits
`EXIT_FAILURE` (1) without touching the file.  With three arguments the file
is loaded (`loadOk` models I/O success), the substitution runs, and the
buffer is saved (`saveOk`).  Every fatal abort (`g_assert` in `sub_new`,
`g_error` on load/save/substitution failure) terminates the process with the
non-zero status 134 (SIGABRT) before the save, leaving the file untouched.
`none` means the substitution ran out of `fuel`. -/
def mainModel (args : List String) (fileContent : List Char)
    (loadOk saveOk : Bool) (fuel : Nat) : Option MainResult :=
  match args with
  | [search_text, replacement, filename] =>
    if search_text.length = 0 ∨ filename.length = 0 then
      some ⟨134, false, fileContent⟩
    else if loadOk = false then
      some ⟨134, false, fileContent⟩
    else
      match do_substitution fuel search_text.toList replacement.toList fileContent with
      | none => none
      | some RunOut.aborted => some ⟨134, false, fileContent⟩
      | some (RunOut.ok buf2) =>
        if saveOk then some ⟨0, false, buf2⟩
        else some ⟨134, false, fileContent⟩
  | _ => some ⟨1, true, fileContent⟩

/-- Follows the spec's design-rationale wording, for comparison with
`replaceStep`: identical except that the anchor column is re-derived from the
already-replaced text (the parenthesis search runs on the post-substitution
buffer, from the end of the inserted replacement). -/
def replaceStepPostAnchor (search_text replacement : List Char) (buf : List Char) (m : Nat) :
    Option (List Char × Nat) :=
  if matchAt search_text (buf.drop m) then
    match get_parenthesis_column (bufAfter search_text replacement buf m)
        (m + replacement.length) with
    | none => some (bufAfter search_text replacement buf m, m + replacement.length)
    | some P =>
      if lineEnd (bufAfter search_text replacement buf m) (m + replacement.length) + 1
          < (bufAfter search_text replacement buf m).length then
        match alignLines search_text replacement P
            (splitLines ((bufAfter search_text replacement buf m).drop
              (lineEnd (bufAfter search_text replacement buf m) (m + replacement.length) + 1))) with
        | none => none
        | some out =>
          some ((bufAfter search_text replacement buf m).take
              (lineEnd (bufAfter search_text replacement buf m) (m + replacement.length) + 1)
            ++ joinLines out, m + replacement.length)
      else some (bufAfter search_text replacement buf m, m + replacement.length)
  else none

/-! Concrete inputs used by closed theorems and witnesses. -/

/-- The spec's worked scenario: an aligned two-argument continuation block. -/
def c1Input : List Char :=
  ("function_call (param1,\n               param2,\n               param3);\n").toList

/-- Expected output of the worked scenario. -/
def c1Output : List Char :=
  ("another_beautiful_name (param1,\n                        param2,\n                        param3);\n").toList

/-- A buffer whose match line has a tab between the match and the
parenthesis. -/
def tabInput : List Char := ("f\t(a,\n         b);\n").toList

/-- Output of running the substitution on `tabInput`. -/
def tabOutput : List Char := ("gg\t(a,\n          b);\n").toList

/-- A small aligned, tab-free example. -/
def exInput : List Char := ("f (a,\n   b);\n").toList

/-- Output of `replaceStep` on `exInput` for the search `exSearch` and the
replacement `exRepl`. -/
def exOutput : List Char := ("gg (a,\n    b);\n").toList

/-- Output of `replaceStepPostAnchor` on `exInput` (no realignment). -/
def exOutputPost : List Char := ("gg (a,\n   b);\n").toList

/-- Search text of the small example. -/
def exSearch : List Char := ("f").toList

/-- Replacement text of the small example. -/
def exRepl : List Char := ("gg").toList

/-- Buffer without a parenthesis on the match line. -/
def npInput : List Char := ("foo\nbar\n").toList

/-- Output for `npInput`: plain substitution, second line untouched. -/
def npOutput : List Char := ("longfoo\nbar\n").toList

/-- A multi-line search text whose on-line remainder is longer than the
anchor column, driving the computed target indentation width negative. -/
def negSearch : List Char := ("q\nabcde").toList

/-- Buffer on which the `negSearch` to empty-replacement run hits the
negative-width abort. -/
def negInput : List Char := ("q\nabcde(x,\n      y);\n").toList

/-- The continuation line of `negInput`. -/
def negLine : List Char := ("      y);").toList

/-- Empty replacement text used with `negSearch`. -/
def negRepl : List Char := []

/-- A space-indented line used to witness single-line realignment. -/
def c3Line : List Char := ("   x);").toList

/-! ### Lemmas about the scanning primitives -/

theorem vcolFold_append (a : Nat) (l1 l2 : List Char) :
    vcolFold a (l1 ++ l2) = vcolFold (vcolFold a l1) l2 := by
  induction l1 generalizing a with
  | nil => rfl
  | cons c rest ih => simp [vcolFold, ih]

theorem vcolFold_no_tab (a : Nat) (l : List Char) (h : ∀ c ∈ l, c ≠ '\t') :
    vcolFold a l = a + l.length := by
  induction l generalizing a with
  | nil => simp [vcolFold]
  | cons c rest ih =>
    have hc : c ≠ '\t' := h c (by simp)
    rw [vcolFold, vcolStep, if_neg hc, ih (a + 1) (fun d hd => h d (by simp [hd]))]
    simp; omega

theorem vcolFold_tabs (a k : Nat) (h : a % 8 = 0) :
    vcolFold a (List.replicate k '\t') = a + 8 * k := by
  induction k generalizing a with
  | zero => simp [vcolFold]
  | succ k ih =>
    rw [List.replicate_succ, vcolFold, vcolStep, if_pos rfl, h, ih (a + (8 - 0)) (by omega)]
    omega

theorem vcolFold_spaces (a n : Nat) :
    vcolFold a (List.replicate n ' ') = a + n := by
  rw [vcolFold_no_tab a _ (by intro c hc; rw [List.eq_of_mem_replicate hc]; decide)]
  simp

theorem vcolFold_indent (n : Nat) :
    vcolFold 0 (List.replicate (n / 8) '\t' ++ List.replicate (n % 8) ' ') = n := by
  rw [vcolFold_append, vcolFold_tabs 0 _ (by simp), vcolFold_spaces]
  omega

theorem vcolFold_ge (a : Nat) (l : List Char) : a + l.length ≤ vcolFold a l := by
  induction l generalizing a with
  | nil => simp [vcolFold]
  | cons c rest ih =>
    rw [vcolFold]
    have h1 : a + 1 ≤ vcolStep a c := by
      unfold vcolStep; split <;> omega
    have h2 := ih (vcolStep a c)
    simp only [List.length_cons]
    omega

theorem foldl_nlStep_no_nl (acc : List Char) (l : List Char) (h : '\n' ∉ l) :
    l.foldl (fun acc c => if c = '\n' then [] else acc ++ [c]) acc = acc ++ l := by
  induction l generalizing acc with
  | nil => simp
  | cons c rest ih =>
    have hc : c ≠ '\n' := by intro hh; exact h (by simp [hh])
    rw [List.foldl_cons, if_neg hc, ih (acc ++ [c]) (fun hh => h (by simp [hh]))]
    simp

theorem afterLastNl_append (l1 l2 : List Char) (h : '\n' ∉ l2) :
    afterLastNl (l1 ++ l2) = afterLastNl l1 ++ l2 := by
  unfold afterLastNl
  rw [List.foldl_append, foldl_nlStep_no_nl _ _ h]

theorem nlOffset_le (l : List Char) : nlOffset l ≤ l.length := by
  induction l with
  | nil => simp [nlOffset]
  | cons c rest ih =>
    rw [nlOffset]
    split
    · simp
    · simp only [List.length_cons]; omega

theorem nlOffset_get (l : List Char) (h : nlOffset l < l.length) :
    l.get? (nlOffset l) = some '\n' := by
  induction l with
  | nil => simp at h
  | cons c rest ih =>
    rw [nlOffset] at h ⊢
    by_cases hc : c = '\n'
    · simp [hc]
    · rw [if_neg hc] at h ⊢
      simpa using ih (by simpa using h)

theorem nlOffset_take_no_nl (l : List Char) :
    ∀ c ∈ l.take (nlOffset l), c ≠ '\n' := by
  induction l with
  | nil => simp
  | cons c rest ih =>
    rw [nlOffset]
    by_cases hc : c = '\n'
    · simp [hc]
    · rw [if_neg hc, List.take_succ_cons]
      intro d hd
      rcases List.mem_cons.1 hd with h1 | h1
      · rw [h1]; exact hc
      · exact ih d h1

theorem nlOffset_append_of_nl (l1 l2 : List Char) (h : nlOffset l1 < l1.length) :
    nlOffset (l1 ++ l2) = nlOffset l1 := by
  induction l1 with
  | nil => simp at h
  | cons c rest ih =>
    simp only [nlOffset, List.length_cons] at h
    simp only [List.cons_append, nlOffset]
    by_cases hc : c = '\n'
    · simp [hc]
    · rw [if_neg hc] at h
      rw [if_neg hc, if_neg hc, List.append_eq, ih (by omega)]

theorem parenOffset_get (l : List Char) (o : Nat) (h : parenOffset l = some o) :
    l.get? o = some '(' := by
  induction l generalizing o with
  | nil => simp [parenOffset] at h
  | cons c rest ih =>
    rw [parenOffset] at h
    by_cases hc : c = '\n'
    · simp [hc] at h
    · rw [if_neg hc] at h
      by_cases hp : c = '('
      · rw [if_pos hp] at h
        cases h
        simp [hp]
      · rw [if_neg hp] at h
        cases ho : parenOffset rest with
        | none => rw [ho] at h; simp at h
        | some o1 =>
          rw [ho] at h
          simp at h
          subst h
          simpa using ih o1 ho

theorem parenOffset_take_no_nl (l : List Char) (o : Nat) (h : parenOffset l = some o) :
    ∀ c ∈ l.take o, c ≠ '\n' ∧ c ≠ '(' := by
  induction l generalizing o with
  | nil => simp [parenOffset] at h
  | cons c rest ih =>
    rw [parenOffset] at h
    by_cases hc : c = '\n'
    · simp [hc] at h
    · rw [if_neg hc] at h
      by_cases hp : c = '('
      · rw [if_pos hp] at h
        cases h
        simp
      · rw [if_neg hp] at h
        cases ho : parenOffset rest with
        | none => rw [ho] at h; simp at h
        | some o1 =>
          rw [ho] at h
          simp at h
          subst h
          rw [List.take_succ_cons]
          intro d hd
          rcases List.mem_cons.1 hd with h1 | h1
          · rw [h1]; exact ⟨hc, hp⟩
          · exact ih o1 ho d h1

theorem parenOffset_lt_nlOffset (l : List Char) (o : Nat) (h : parenOffset l = some o) :
    o < nlOffset l := by
  induction l generalizing o with
  | nil => simp [parenOffset] at h
  | cons c rest ih =>
    rw [parenOffset] at h
    rw [nlOffset]
    by_cases hc : c = '\n'
    · simp [hc] at h
    · rw [if_neg hc] at h
      rw [if_neg hc]
      by_cases hp : c = '('
      · rw [if_pos hp] at h
        cases h
        omega
      · rw [if_neg hp] at h
        cases ho : parenOffset rest with
        | none => rw [ho] at h; simp at h
        | some o1 =>
          rw [ho] at h
          simp at h
          subst h
          have := ih o1 ho
          omega

theorem parenOffset_append_left (l l2 : List Char) (o : Nat) (h : parenOffset l = some o) :
    parenOffset (l ++ l2) = some o := by
  induction l generalizing o with
  | nil => simp [parenOffset] at h
  | cons c rest ih =>
    rw [parenOffset] at h
    rw [List.cons_append, parenOffset]
    by_cases hc : c = '\n'
    · simp [hc] at h
    · rw [if_neg hc] at h
      rw [if_neg hc]
      by_cases hp : c = '('
      · rw [if_pos hp] at h ⊢; exact h
      · rw [if_neg hp] at h ⊢
        cases ho : parenOffset rest with
        | none => rw [ho] at h; simp at h
        | some o1 =>
          rw [ho] at h
          simp at h
          subst h
          rw [ih o1 ho]
          rfl

theorem parenOffset_take (l : List Char) (o k : Nat) (h : parenOffset l = some o)
    (hk : o < k) : parenOffset (l.take k) = some o := by
  induction l generalizing o k with
  | nil => simp [parenOffset] at h
  | cons c rest ih =>
    rw [parenOffset] at h
    cases k with
    | zero => omega
    | succ k1 =>
      rw [List.take_succ_cons, parenOffset]
      by_cases hc : c = '\n'
      · simp [hc] at h
      · rw [if_neg hc] at h
        rw [if_neg hc]
        by_cases hp : c = '('
        · rw [if_pos hp] at h ⊢; exact h
        · rw [if_neg hp] at h ⊢
          cases ho : parenOffset rest with
          | none => rw [ho] at h; simp at h
          | some o1 =>
            rw [ho] at h
            simp at h
            subst h
            rw [ih o1 k1 ho (by omega)]
            rfl

/-! ### Lemmas about indentation scanning -/

theorem isspace_nl : g_unichar_isspace '\n' = true := by decide

theorem textStartOffset_le (l : List Char) : textStartOffset l ≤ l.length := by
  induction l with
  | nil => simp [textStartOffset]
  | cons c rest ih =>
    rw [textStartOffset]
    split
    · simp
    · split
      · simp only [List.length_cons]; omega
      · simp

theorem textStartOffset_ws_append (ind rest : List Char)
    (h : ∀ c ∈ ind, g_unichar_isspace c = true ∧ c ≠ '\n') :
    textStartOffset (ind ++ rest) = ind.length + textStartOffset rest := by
  induction ind with
  | nil => simp
  | cons c tl ih =>
    obtain ⟨hws, hnl⟩ := h c (by simp)
    rw [List.cons_append, textStartOffset, if_neg hnl, if_pos hws,
      ih (fun d hd => h d (by simp [hd]))]
    simp only [List.length_cons]
    omega

theorem textStartOffset_not_ws (c : Char) (rest : List Char)
    (h : g_unichar_isspace c = false) :
    textStartOffset (c :: rest) = 0 := by
  have hnl : c ≠ '\n' := by
    intro hh
    rw [hh, isspace_nl] at h
    cases h
  rw [textStartOffset, if_neg hnl, if_neg (by simp [h])]

theorem textStartOffset_take_ws (l : List Char) :
    ∀ c ∈ l.take (textStartOffset l), g_unichar_isspace c = true ∧ c ≠ '\n' := by
  induction l with
  | nil => simp
  | cons c rest ih =>
    rw [textStartOffset]
    by_cases hnl : c = '\n'
    · simp [hnl]
    · rw [if_neg hnl]
      by_cases hws : g_unichar_isspace c
      · rw [if_pos hws, List.take_succ_cons]
        intro d hd
        rcases List.mem_cons.1 hd with h1 | h1
        · exact h1 ▸ ⟨hws, hnl⟩
        · exact ih d h1
      · rw [if_neg hws]
        simp

theorem textStartOffset_stop (l : List Char) (h : textStartOffset l < l.length) :
    ∃ ch, l.get? (textStartOffset l) = some ch ∧ (ch = '\n' ∨ g_unichar_isspace ch = false) := by
  induction l with
  | nil => simp at h
  | cons c rest ih =>
    rw [textStartOffset] at h ⊢
    by_cases hnl : c = '\n'
    · simp [hnl]
    · rw [if_neg hnl] at h ⊢
      by_cases hws : g_unichar_isspace c
      · rw [if_pos hws] at h ⊢
        simp only [List.length_cons] at h
        simpa using ih (by omega)
      · rw [if_neg hws] at h ⊢
        exact ⟨c, by simp, Or.inr (by simpa using hws)⟩

theorem matchAt_take (s : List Char) : ∀ l, matchAt s l = true →
    l.take s.length = s ∧ s.length ≤ l.length := by
  induction s with
  | nil => intro l _; simp [matchAt]
  | cons a xs ih =>
    intro l h
    cases l with
    | nil => simp [matchAt] at h
    | cons b ys =>
      rw [matchAt, Bool.and_eq_true] at h
      obtain ⟨h1, h2⟩ := h
      have hab : a = b := by simpa using h1
      obtain ⟨h3, h4⟩ := ih ys h2
      subst hab
      rw [List.length_cons, List.take_succ_cons, h3]
      exact ⟨rfl, by simp only [List.length_cons]; omega⟩

/-! ### Lemmas about line splitting -/

theorem splitLines_ne_nil (l : List Char) : splitLines l ≠ [] := by
  cases l with
  | nil => simp [splitLines]
  | cons c rest =>
    rw [splitLines]
    split
    · simp
    · cases h : splitLines rest with
      | nil => simp
      | cons p ps => simp

theorem splitLines_no_nl (l : List Char) : ∀ p ∈ splitLines l, '\n' ∉ p := by
  induction l with
  | nil => intro p hp; simp [splitLines] at hp; simp [hp]
  | cons c rest ih =>
    intro p hp
    rw [splitLines] at hp
    by_cases hc : c = '\n'
    · rw [if_pos hc] at hp
      rcases List.mem_cons.1 hp with h1 | h1
      · simp [h1]
      · exact ih p h1
    · rw [if_neg hc] at hp
      cases hs : splitLines rest with
      | nil => exact absurd hs (splitLines_ne_nil rest)
      | cons q qs =>
        rw [hs] at hp
        rcases List.mem_cons.1 hp with h1 | h1
        · subst h1
          intro hmem
          rcases List.mem_cons.1 hmem with h2 | h2
          · exact hc h2.symm
          · exact ih q (by rw [hs]; exact List.mem_cons_self q qs) h2
        · exact ih p (by rw [hs]; exact List.mem_cons_of_mem q h1)

theorem joinLines_splitLines (l : List Char) : joinLines (splitLines l) = l := by
  induction l with
  | nil => rfl
  | cons c rest ih =>
    rw [splitLines]
    by_cases hc : c = '\n'
    · subst hc
      cases hs : splitLines rest with
      | nil => exact absurd hs (splitLines_ne_nil rest)
      | cons q qs =>
        rw [hs] at ih
        rw [if_pos rfl, joinLines, List.nil_append, ih]
    · rw [if_neg hc]
      cases hs : splitLines rest with
      | nil => exact absurd hs (splitLines_ne_nil rest)
      | cons q qs =>
        rw [hs] at ih
        cases qs with
        | nil =>
          rw [joinLines] at ih
          rw [joinLines, ih]
        | cons q2 qs2 =>
          rw [joinLines] at ih
          rw [joinLines, List.cons_append, ih]

/-! ### Characterizations of the line realignment -/

theorem lineTextStartCol_some (l : List Char) (col : Nat)
    (h : lineTextStartCol l = some col) :
    textStartOffset l < l.length ∧ col = vcolFold 0 (l.take (textStartOffset l)) ∧
    l.get? (textStartOffset l) ≠ some '\n' := by
  simp only [lineTextStartCol] at h
  by_cases hp : (textStartOffset l = l.length ∨ l.get? (textStartOffset l) = some '\n')
  · rw [if_pos hp] at h; cases h
  · rw [if_neg hp] at h
    push_neg at hp
    exact ⟨lt_of_le_of_ne (textStartOffset_le l) hp.1, (Option.some.inj h).symm, by simpa using hp.2⟩

theorem lineTextStartCol_eq_some (l : List Char)
    (h1 : textStartOffset l < l.length)
    (h2 : ¬ l.get? (textStartOffset l) = some '\n') :
    lineTextStartCol l = some (vcolFold 0 (l.take (textStartOffset l))) := by
  simp only [lineTextStartCol]
  rw [if_neg]
  push_neg
  exact ⟨by omega, h2⟩

theorem lineTextStartCol_stop (l : List Char) (col : Nat)
    (h : lineTextStartCol l = some col) :
    ∃ ch, l.get? (textStartOffset l) = some ch ∧ g_unichar_isspace ch = false := by
  obtain ⟨hlt, _, hnl⟩ := lineTextStartCol_some l col h
  obtain ⟨ch, hch, hd⟩ := textStartOffset_stop l hlt
  refine ⟨ch, hch, ?_⟩
  rcases hd with h1 | h1
  · exact absurd (h1 ▸ hch) hnl
  · exact h1

theorem adjustLine_none_iff (s r l : List Char) (col : Nat)
    (h : lineTextStartCol l = some col) :
    (adjustLine s r l = none ↔ (col : Int) - (s.length : Int) + (r.length : Int) < 0) := by
  simp only [adjustLine, h]
  by_cases hneg : (col : Int) - (s.length : Int) + (r.length : Int) < 0
  · simp [hneg]
  · simp [hneg]

theorem adjustLine_some_eq (s r l : List Char) (col n : Nat)
    (h : lineTextStartCol l = some col)
    (hn : (n : Int) = (col : Int) - (s.length : Int) + (r.length : Int)) :
    adjustLine s r l = some ((if indentHasTab l then
        List.replicate (n / 8) '\t' ++ List.replicate (n % 8) ' '
      else List.replicate n ' ') ++ l.drop (textStartOffset l)) := by
  simp only [adjustLine, h]
  rw [if_neg (by omega)]
  have hto : ((col : Int) - (s.length : Int) + (r.length : Int)).toNat = n := by omega
  rw [hto]

theorem indent_all_ws (n : Nat) (b : Bool) :
    ∀ c ∈ (if b = true then List.replicate (n / 8) '\t' ++ List.replicate (n % 8) ' '
      else List.replicate n ' '), g_unichar_isspace c = true ∧ c ≠ '\n' := by
  intro c hc
  cases b with
  | false =>
    rw [if_neg (by simp)] at hc
    rw [List.eq_of_mem_replicate hc]
    exact ⟨by decide, by decide⟩
  | true =>
    rw [if_pos rfl] at hc
    rcases List.mem_append.1 hc with h1 | h1
    · rw [List.eq_of_mem_replicate h1]
      exact ⟨by decide, by decide⟩
    · rw [List.eq_of_mem_replicate h1]
      exact ⟨by decide, by decide⟩

theorem indent_width (n : Nat) (b : Bool) :
    vcolFold 0 (if b = true then List.replicate (n / 8) '\t' ++ List.replicate (n % 8) ' '
      else List.replicate n ' ') = n := by
  cases b with
  | false => rw [if_neg (by simp)]; exact (vcolFold_spaces 0 n).trans (by omega)
  | true => rw [if_pos rfl]; exact vcolFold_indent n

theorem adjustLine_col (s r l l2 : List Char) (col : Nat)
    (hcol : lineTextStartCol l = some col)
    (hadj : adjustLine s r l = some l2) :
    s.length ≤ col + r.length ∧
    lineTextStartCol l2 = some (col + r.length - s.length) := by
  have hnn : ¬ ((col : Int) - (s.length : Int) + (r.length : Int) < 0) := by
    intro hneg
    rw [(adjustLine_none_iff s r l col hcol).2 hneg] at hadj
    cases hadj
  have hsle : s.length ≤ col + r.length := by omega
  refine ⟨hsle, ?_⟩
  set n := col + r.length - s.length with hndef
  have hn : (n : Int) = (col : Int) - (s.length : Int) + (r.length : Int) := by
    push_cast [hndef]
    omega
  rw [adjustLine_some_eq s r l col n hcol hn] at hadj
  set ind := (if indentHasTab l then
      List.replicate (n / 8) '\t' ++ List.replicate (n % 8) ' '
    else List.replicate n ' ') with hinddef
  have hl2 : l2 = ind ++ l.drop (textStartOffset l) := (Option.some.inj hadj).symm
  obtain ⟨ch, hch, hchws⟩ := lineTextStartCol_stop l col hcol
  have hlt : textStartOffset l < l.length := (lineTextStartCol_some l col hcol).1
  have hdrop : l.drop (textStartOffset l) = ch :: l.drop (textStartOffset l + 1) := by
    have := List.get?_eq_get (by omega : textStartOffset l < l.length)
    rw [List.drop_eq_get_cons (by omega : textStartOffset l < l.length)]
    rw [this] at hch
    rw [Option.some.inj hch]
  have hindws : ∀ c ∈ ind, g_unichar_isspace c = true ∧ c ≠ '\n' := by
    rw [hinddef]
    exact indent_all_ws n (indentHasTab l)
  have hts2 : textStartOffset l2 = ind.length := by
    rw [hl2, hdrop, textStartOffset_ws_append ind _ hindws,
      textStartOffset_not_ws ch _ hchws]
    omega
  have hchnl : ch ≠ '\n' := by
    intro hh
    rw [hh] at hchws
    rw [isspace_nl] at hchws
    cases hchws
  have hget : l2.get? (textStartOffset l2) = some ch := by
    rw [hts2, hl2, hdrop, List.get?_append_right (le_refl ind.length)]
    simp
  have hlen : textStartOffset l2 < l2.length := by
    rw [hts2, hl2, hdrop]
    simp
  rw [lineTextStartCol_eq_some l2 hlen (by rw [hget]; simp [hchnl])]
  congr 1
  rw [hts2, hl2, List.take_left, hinddef]
  exact indent_width n (indentHasTab l)

/-- Structure of a successful realignment loop: the input lines split as a
realigned prefix (every line's column equal to the anchor column, rewritten
by `adjustLine`) followed by an untouched suffix whose first line, if any,
does not have the anchor column. -/
theorem alignLines_split (s r : List Char) (P : Nat) (lines out : List (List Char))
    (h : alignLines s r P lines = some out) :
    ∃ pre pre2 post, lines = pre ++ post ∧ out = pre2 ++ post ∧
      List.Forall₂ (fun a b => lineTextStartCol a = some P ∧ adjustLine s r a = some b) pre pre2 ∧
      (∀ l0, post.head? = some l0 → ¬ lineTextStartCol l0 = some P) := by
  induction lines generalizing out with
  | nil =>
    rw [alignLines] at h
    cases h
    exact ⟨[], [], [], rfl, rfl, List.Forall₂.nil, by simp⟩
  | cons l rest ih =>
    rw [alignLines] at h
    by_cases hcol : lineTextStartCol l = some P
    · rw [if_pos hcol] at h
      cases hadj : adjustLine s r l with
      | none => rw [hadj] at h; cases h
      | some l2 =>
        rw [hadj] at h
        cases hrec : alignLines s r P rest with
        | none => rw [hrec] at h; cases h
        | some out1 =>
          rw [hrec] at h
          have hout : out = l2 :: out1 := by
            simp only [Option.map_some'] at h
            exact (Option.some.inj h).symm
          obtain ⟨pre, pre2, post, h1, h2, h3, h4⟩ := ih out1 hrec
          exact ⟨l :: pre, l2 :: pre2, post, by rw [h1, List.cons_append],
            by rw [hout, h2, List.cons_append],
            List.Forall₂.cons ⟨hcol, hadj⟩ h3, h4⟩
    · rw [if_neg hcol] at h
      cases h
      exact ⟨[], [], l :: rest, rfl, rfl, List.Forall₂.nil, by
        intro l0 hl0
        rw [List.head?] at hl0
        rw [← Option.some.inj hl0]
        exact hcol⟩

/-! ### Structure of one replacement step -/

theorem bufAfter_def (s r buf : List Char) (m : Nat) :
    bufAfter s r buf m = (buf.take m ++ r) ++ buf.drop (m + s.length) := rfl

theorem prefix_len (r buf : List Char) (m : Nat) (hm : m ≤ buf.length) :
    (buf.take m ++ r).length = m + r.length := by
  rw [List.length_append, List.length_take]
  omega

theorem bufAfter_drop_cursor (s r buf : List Char) (m : Nat) (hm : m ≤ buf.length) :
    (bufAfter s r buf m).drop (m + r.length) = buf.drop (m + s.length) := by
  rw [bufAfter_def]
  exact List.drop_left' (prefix_len r buf m hm)

theorem bufAfter_take_cursor (s r buf : List Char) (m : Nat) (hm : m ≤ buf.length) :
    (bufAfter s r buf m).take (m + r.length) = buf.take m ++ r := by
  rw [bufAfter_def]
  exact List.take_left' (prefix_len r buf m hm)

theorem findNext_ge (buf : List Char) (pos : Nat) (s : List Char) (m : Nat)
    (h : findNext buf pos s = some m) : pos ≤ m := by
  unfold findNext at h
  cases ho : findFrom s (buf.drop pos) with
  | none => rw [ho] at h; cases h
  | some o =>
    rw [ho] at h
    simp only [Option.map_some', Option.some.injEq] at h
    omega

theorem findFrom_matches (s : List Char) : ∀ (l : List Char) (o : Nat),
    findFrom s l = some o → matchAt s (l.drop o) = true := by
  intro l
  induction l with
  | nil =>
    intro o h
    rw [findFrom] at h
    by_cases hb : matchAt s [] = true
    · rw [if_pos hb] at h
      cases h
      simpa using hb
    · rw [if_neg hb] at h
      cases h
  | cons c rest ih =>
    intro o h
    rw [findFrom] at h
    by_cases hb : matchAt s (c :: rest) = true
    · rw [if_pos hb] at h
      cases h
      simpa using hb
    · rw [if_neg hb] at h
      cases hf : findFrom s rest with
      | none => rw [hf] at h; cases h
      | some o1 =>
        rw [hf] at h
        simp only [Option.map_some', Option.some.injEq] at h
        rw [← h, List.drop_succ_cons]
        exact ih o1 hf

theorem findNext_matches (buf : List Char) (pos : Nat) (s : List Char) (m : Nat)
    (h : findNext buf pos s = some m) : matchAt s (buf.drop m) = true := by
  unfold findNext at h
  cases ho : findFrom s (buf.drop pos) with
  | none => rw [ho] at h; cases h
  | some o =>
    rw [ho] at h
    simp only [Option.map_some', Option.some.injEq] at h
    rw [← h, ← List.drop_drop]
    exact findFrom_matches s (buf.drop pos) o ho

theorem replaceStep_no_anchor (s r buf : List Char) (m : Nat)
    (hmatch : matchAt s (buf.drop m) = true)
    (hp : get_parenthesis_column buf (m + s.length) = none) :
    replaceStep s r buf m = some (bufAfter s r buf m, m + r.length) := by
  unfold replaceStep
  rw [if_pos hmatch, hp]

theorem replaceStep_anchor_cases (s r buf : List Char) (m P : Nat) (b2 : List Char) (c2 : Nat)
    (hmatch : matchAt s (buf.drop m) = true)
    (hp : get_parenthesis_column buf (m + s.length) = some P)
    (hstep : replaceStep s r buf m = some (b2, c2)) :
    c2 = m + r.length ∧
    ((¬ lineEnd (bufAfter s r buf m) (m + r.length) + 1 < (bufAfter s r buf m).length) ∧
        b2 = bufAfter s r buf m ∨
      lineEnd (bufAfter s r buf m) (m + r.length) + 1 < (bufAfter s r buf m).length ∧
        ∃ out, alignLines s r P (splitLines ((bufAfter s r buf m).drop
            (lineEnd (bufAfter s r buf m) (m + r.length) + 1))) = some out ∧
          b2 = (bufAfter s r buf m).take (lineEnd (bufAfter s r buf m) (m + r.length) + 1)
            ++ joinLines out) := by
  unfold replaceStep at hstep
  rw [if_pos hmatch, hp] at hstep
  replace hstep :
      (if lineEnd (bufAfter s r buf m) (m + r.length) + 1 < (bufAfter s r buf m).length then
        match alignLines s r P (splitLines ((bufAfter s r buf m).drop
            (lineEnd (bufAfter s r buf m) (m + r.length) + 1))) with
        | none => none
        | some out =>
          some ((bufAfter s r buf m).take
              (lineEnd (bufAfter s r buf m) (m + r.length) + 1) ++ joinLines out,
            m + r.length)
      else some (bufAfter s r buf m, m + r.length)) = some (b2, c2) := hstep
  by_cases he : lineEnd (bufAfter s r buf m) (m + r.length) + 1 < (bufAfter s r buf m).length
  · rw [if_pos he] at hstep
    cases halign : alignLines s r P (splitLines ((bufAfter s r buf m).drop
        (lineEnd (bufAfter s r buf m) (m + r.length) + 1))) with
    | none => rw [halign] at hstep; cases hstep
    | some out =>
      rw [halign] at hstep
      simp only [Option.some.injEq, Prod.mk.injEq] at hstep
      obtain ⟨hb, hc⟩ := hstep
      exact ⟨hc.symm, Or.inr ⟨he, out, rfl, hb.symm⟩⟩

  · rw [if_neg he] at hstep
    simp only [Option.some.injEq, Prod.mk.injEq] at hstep
    obtain ⟨hb, hc⟩ := hstep
    exact ⟨hc.symm, Or.inl ⟨he, hb.symm⟩⟩

theorem lineEnd_ge (buf : List Char) (pos : Nat) : pos ≤ lineEnd buf pos := by
  unfold lineEnd
  omega

theorem replaceStep_cursor_take (s r buf : List Char) (m : Nat) (b2 : List Char) (c2 : Nat)
    (hm : m + s.length ≤ buf.length)
    (hstep : replaceStep s r buf m = some (b2, c2)) :
    c2 = m + r.length ∧ b2.take c2 = buf.take m ++ r := by
  by_cases hmatch : matchAt s (buf.drop m) = true
  · cases hp : get_parenthesis_column buf (m + s.length) with
    | none =>
      rw [replaceStep_no_anchor s r buf m hmatch hp] at hstep
      simp only [Option.some.injEq, Prod.mk.injEq] at hstep
      obtain ⟨hb, hc⟩ := hstep
      refine ⟨hc.symm, ?_⟩
      rw [← hb, ← hc]
      exact bufAfter_take_cursor s r buf m (by omega)
    | some P =>
      obtain ⟨hc2, hcases⟩ := replaceStep_anchor_cases s r buf m P b2 c2 hmatch hp hstep
      refine ⟨hc2, ?_⟩
      rcases hcases with ⟨he, hb⟩ | ⟨he, out, halign, hb⟩
      · rw [hb, hc2]
        exact bufAfter_take_cursor s r buf m (by omega)
      · have hce : m + r.length ≤ lineEnd (bufAfter s r buf m) (m + r.length) :=
          lineEnd_ge _ _
        rw [hb, hc2, List.take_append_eq_append_take, List.length_take,
          inf_eq_left.mpr (le_of_lt he), List.take_take,
          inf_eq_left.mpr (by omega :
            m + r.length ≤ lineEnd (bufAfter s r buf m) (m + r.length) + 1),
          (by omega : m + r.length - (lineEnd (bufAfter s r buf m) (m + r.length) + 1) = 0),
          List.take_zero, List.append_nil]
        exact bufAfter_take_cursor s r buf m (by omega)
  · unfold replaceStep at hstep
    rw [if_neg hmatch] at hstep
    cases hstep

/-! ### Claim theorems -/

set_option maxHeartbeats 2000000 in
/-- C1: on the buffer with the three lines of the worked scenario, replacing
`function_call` by `another_beautiful_name` yields exactly
`another_beautiful_name (param1,` with the `param2` and `param3` lines each
indented 9 more columns (15 to 24 spaces), staying aligned after the moved
parenthesis. -/
theorem c1_worked_scenario :
    do_substitution 5 (("function_call").toList) (("another_beautiful_name").toList) c1Input
      = some (RunOut.ok c1Output) := by decide

set_option maxHeartbeats 2000000 in
/-- C6: when no parenthesis occurs on the match line at or after the match
end, the match is replaced as a plain substitution (`bufAfter`) and no other
part of the buffer changes; on `foo\nbar\n` with `foo` to `longfoo` the
output is `longfoo\nbar\n`. -/
theorem c6_no_anchor_plain :
    (∀ s r buf m, matchAt s (buf.drop m) = true →
        get_parenthesis_column buf (m + s.length) = none →
        replaceStep s r buf m
          = some (buf.take m ++ r ++ buf.drop (m + s.length), m + r.length)) ∧
    do_substitution 2 (("foo").toList) (("longfoo").toList) npInput
      = some (RunOut.ok npOutput) := by
  constructor
  · intro s r buf m hmatch hp
    exact replaceStep_no_anchor s r buf m hmatch hp
  · decide

set_option maxHeartbeats 2000000 in
/-- Witness for C6 at the concrete `foo`/`longfoo` input. -/
theorem c6_witness :
    replaceStep (("foo").toList) (("longfoo").toList) npInput 0
      = some (npInput.take 0 ++ ("longfoo").toList
          ++ npInput.drop (0 + ("foo").toList.length), 0 + ("longfoo").toList.length) :=
  c6_no_anchor_plain.1 (("foo").toList) (("longfoo").toList) npInput 0 (by decide) (by decide)

/-- C10: the anchor column returned by `get_parenthesis_column` is the visual
column of the position immediately after the found `'('` character, that is,
one more than the visual column of the `'('` itself; a line joins the
continuation block exactly when its first non-whitespace character sits at
this after-parenthesis column. -/
theorem c10_anchor_after_paren (buf : List Char) (pos o : Nat)
    (h : parenOffset (buf.drop pos) = some o) :
    buf.get? (pos + o) = some '(' ∧
    get_parenthesis_column buf pos = some (visualColumn buf (pos + o) + 1) := by
  have hg0 := parenOffset_get (buf.drop pos) o h
  rw [List.get?_drop] at hg0
  refine ⟨hg0, ?_⟩
  unfold get_parenthesis_column
  rw [h]
  simp only [Option.map_some', Option.some.injEq]
  have hgetElem : buf[pos + o]? = some '(' := by
    rw [← List.get?_eq_getElem?]
    exact hg0
  have htake : buf.take (pos + o + 1) = buf.take (pos + o) ++ ['('] := by
    rw [List.take_succ, hgetElem]
    rfl
  unfold visualColumn
  rw [htake, afterLastNl_append _ _ (by decide), vcolFold_append]
  simp [vcolFold, vcolStep]

/-- Witness for C10 on the small example: the `'('` of `exInput` sits at
offset 2, and the anchor column is 3 = column of `'('` plus one. -/
theorem c10_witness :
    exInput.get? (1 + 1) = some '(' ∧
    get_parenthesis_column exInput 1 = some (visualColumn exInput (1 + 1) + 1) :=
  c10_anchor_after_paren exInput 1 1 (by decide)

/-- C8: after each replacement the engine's cursor is exactly the end of the
inserted replacement text (`m + replacement.length`, with the replacement
occupying the text just before it), and every subsequent match starts at or
after the cursor, so replaced text and inserted replacement text are never
re-matched. -/
theorem c8_no_rematch :
    (∀ s r buf m b2 c2, m + s.length ≤ buf.length →
        replaceStep s r buf m = some (b2, c2) →
        c2 = m + r.length ∧ b2.take c2 = buf.take m ++ r) ∧
    (∀ buf pos s m2, findNext buf pos s = some m2 → pos ≤ m2) :=
  ⟨fun s r buf m b2 c2 hm hstep => replaceStep_cursor_take s r buf m b2 c2 hm hstep,
   fun buf pos s m2 h => findNext_ge buf pos s m2 h⟩

set_option maxHeartbeats 2000000 in
/-- Witness for C8 on the small example. -/
theorem c8_witness :
    (2 = 0 + exRepl.length ∧ exOutput.take 2 = exInput.take 0 ++ exRepl) ∧ (0 : Nat) ≤ 0 :=
  ⟨c8_no_rematch.1 exSearch exRepl exInput 0 exOutput 2 (by decide) (by decide),
   c8_no_rematch.2 exInput 0 exSearch 0 (by decide)⟩

/-- C3: realigning one continuation line deletes its entire leading
whitespace run and inserts indentation of exactly
`new_start_col = old_start_col + (len replacement - len search)` visual
columns (codepoint counts), rendered as `new_start_col / 8` tabs followed by
`new_start_col % 8` spaces when the line's own previous indentation contained
a tab, and as `new_start_col` spaces otherwise. -/
theorem c3_realign_one_line (s r l : List Char) (col n : Nat)
    (hcol : lineTextStartCol l = some col)
    (hn : (n : Int) = (col : Int) - (s.length : Int) + (r.length : Int)) :
    adjustLine s r l = some ((if indentHasTab l then
        List.replicate (n / 8) '\t' ++ List.replicate (n % 8) ' '
      else List.replicate n ' ') ++ l.drop (textStartOffset l)) ∧
    (∀ c ∈ l.take (textStartOffset l), g_unichar_isspace c = true) ∧
    vcolFold 0 (if indentHasTab l then
        List.replicate (n / 8) '\t' ++ List.replicate (n % 8) ' '
      else List.replicate n ' ') = n := by
  refine ⟨adjustLine_some_eq s r l col n hcol hn, ?_, indent_width n (indentHasTab l)⟩
  intro c hc
  exact (textStartOffset_take_ws l c hc).1

/-- Witness for C3: the line of three spaces before text, with a one-codepoint
search and a two-codepoint replacement, is rebuilt with 4 spaces. -/
theorem c3_witness :
    adjustLine exSearch exRepl c3Line = some ((if indentHasTab c3Line then
        List.replicate (4 / 8) '\t' ++ List.replicate (4 % 8) ' '
      else List.replicate 4 ' ') ++ c3Line.drop (textStartOffset c3Line)) ∧
    (∀ c ∈ c3Line.take (textStartOffset c3Line), g_unichar_isspace c = true) ∧
    vcolFold 0 (if indentHasTab c3Line then
        List.replicate (4 / 8) '\t' ++ List.replicate (4 % 8) ' '
      else List.replicate 4 ' ') = 4 :=
  c3_realign_one_line exSearch exRepl c3Line 3 4 (by decide) (by decide)

set_option maxHeartbeats 4000000 in
/-- C5, counterexample: the code computes the anchor column from the
pre-replacement text, not from the already-replaced text.  On `exInput` the
pre-replacement anchor column is 3 and the continuation line (column 3) is
realigned; had the anchor been re-derived from the already-replaced text
(column 4, as `replaceStepPostAnchor` does, following the spec's wording),
the continuation line would not have matched and would have been left
untouched.  The two runs differ. -/
theorem c5_counterexample :
    replaceStep exSearch exRepl exInput 0 = some (exOutput, 2) ∧
    replaceStepPostAnchor exSearch exRepl exInput 0 = some (exOutputPost, 2) ∧
    get_parenthesis_column exInput (0 + exSearch.length) = some 3 ∧
    get_parenthesis_column (bufAfter exSearch exRepl exInput 0) (0 + exRepl.length) = some 4 ∧
    ¬ replaceStep exSearch exRepl exInput 0 = replaceStepPostAnchor exSearch exRepl exInput 0 := by
  refine ⟨by decide, by decide, by decide, by decide, by decide⟩

/-- C5, amended: the anchor column that the continuation-line test compares
against is the one computed from the pre-replacement buffer (the
`get_parenthesis_column` call happens before the substitution); the
realignment loop then uses exactly this column `P` on the post-substitution
buffer. -/
theorem c5_pre_replacement_anchor (s r buf : List Char) (m P : Nat)
    (hmatch : matchAt s (buf.drop m) = true)
    (hp : get_parenthesis_column buf (m + s.length) = some P) :
    replaceStep s r buf m =
      (if lineEnd (bufAfter s r buf m) (m + r.length) + 1 < (bufAfter s r buf m).length then
        match alignLines s r P (splitLines ((bufAfter s r buf m).drop
            (lineEnd (bufAfter s r buf m) (m + r.length) + 1))) with
        | none => none
        | some out => some ((bufAfter s r buf m).take
            (lineEnd (bufAfter s r buf m) (m + r.length) + 1) ++ joinLines out, m + r.length)
      else some (bufAfter s r buf m, m + r.length)) := by
  unfold replaceStep
  rw [if_pos hmatch, hp]

set_option maxHeartbeats 2000000 in
/-- Witness for the amended C5 at the small example. -/
theorem c5_witness :
    replaceStep exSearch exRepl exInput 0 =
      (if lineEnd (bufAfter exSearch exRepl exInput 0) (0 + exRepl.length) + 1
          < (bufAfter exSearch exRepl exInput 0).length then
        match alignLines exSearch exRepl 3 (splitLines ((bufAfter exSearch exRepl exInput 0).drop
            (lineEnd (bufAfter exSearch exRepl exInput 0) (0 + exRepl.length) + 1))) with
        | none => none
        | some out => some ((bufAfter exSearch exRepl exInput 0).take
            (lineEnd (bufAfter exSearch exRepl exInput 0) (0 + exRepl.length) + 1)
          ++ joinLines out, 0 + exRepl.length)
      else some (bufAfter exSearch exRepl exInput 0, 0 + exRepl.length)) :=
  c5_pre_replacement_anchor exSearch exRepl exInput 0 3 (by decide) (by decide)

/-- C7: a negative computed target indentation width aborts the run at that
point and is never clamped or recovered from, and the abort branch of
`adjustLine` is unreachable exactly when the width is non-negative; the
abort propagates through `alignLines`, `replaceStep` and `do_substitution`. -/
theorem c7_negative_width_aborts :
    (∀ s r l col, lineTextStartCol l = some col →
        (adjustLine s r l = none ↔ (col : Int) - (s.length : Int) + (r.length : Int) < 0)) ∧
    (∀ s r P l rest, lineTextStartCol l = some P → adjustLine s r l = none →
        alignLines s r P (l :: rest) = none) ∧
    (∀ s r buf m P, matchAt s (buf.drop m) = true →
        get_parenthesis_column buf (m + s.length) = some P →
        lineEnd (bufAfter s r buf m) (m + r.length) + 1 < (bufAfter s r buf m).length →
        alignLines s r P (splitLines ((bufAfter s r buf m).drop
          (lineEnd (bufAfter s r buf m) (m + r.length) + 1))) = none →
        replaceStep s r buf m = none) ∧
    (∀ s r buf m fuel, findNext buf 0 s = some m → replaceStep s r buf m = none →
        do_substitution (fuel + 1) s r buf = some RunOut.aborted) := by
  refine ⟨?_, ?_, ?_, ?_⟩
  · intro s r l col hcol
    exact adjustLine_none_iff s r l col hcol
  · intro s r P l rest hcol hadj
    rw [alignLines, if_pos hcol, hadj]
  · intro s r buf m P hmatch hp he halign
    unfold replaceStep
    rw [if_pos hmatch, hp]
    show (if lineEnd (bufAfter s r buf m) (m + r.length) + 1 < (bufAfter s r buf m).length then
        match alignLines s r P (splitLines ((bufAfter s r buf m).drop
            (lineEnd (bufAfter s r buf m) (m + r.length) + 1))) with
        | none => none
        | some out =>
          some ((bufAfter s r buf m).take
              (lineEnd (bufAfter s r buf m) (m + r.length) + 1) ++ joinLines out,
            m + r.length)
      else some (bufAfter s r buf m, m + r.length)) = none
    rw [if_pos he, halign]
  · intro s r buf m fuel hfind hstep
    unfold do_substitution
    rw [doSubLoop, hfind]
    show (match replaceStep s r buf m with
      | none => some RunOut.aborted
      | some (buf2, c2) => doSubLoop s r fuel buf2 c2) = some RunOut.aborted
    rw [hstep]

set_option maxHeartbeats 4000000 in
/-- Witness for C7: a search text whose on-line remainder is longer than the
continuation column (possible with a multi-line search text) drives the
target width to -1: the single-line realignment aborts, and the whole run
aborts at that match. -/
theorem c7_witness :
    (adjustLine negSearch negRepl negLine = none ↔
      ((6 : Nat) : Int) - (negSearch.length : Int) + (negRepl.length : Int) < 0) ∧
    alignLines negSearch negRepl 6 (negLine :: []) = none ∧
    replaceStep negSearch negRepl negInput 0 = none ∧
    do_substitution 1 negSearch negRepl negInput = some RunOut.aborted :=
  ⟨c7_negative_width_aborts.1 negSearch negRepl negLine 6 (by decide),
   c7_negative_width_aborts.2.1 negSearch negRepl 6 negLine [] (by decide) (by decide),
   c7_negative_width_aborts.2.2.1 negSearch negRepl negInput 0 6 (by decide) (by decide)
     (by decide) (by decide),
   c7_negative_width_aborts.2.2.2 negSearch negRepl negInput 0 0 (by decide) (by decide)⟩

set_option maxHeartbeats 4000000 in
/-- C2, counterexample: with a tab between the match and the parenthesis, a
realigned continuation line does not end at the final-buffer anchor column.
On `tabInput` the run realigns the continuation line to column 10, while the
anchor parenthesis in the final buffer still yields column 9. -/
theorem c2_counterexample :
    do_substitution 2 exSearch exRepl tabInput = some (RunOut.ok tabOutput) ∧
    lineTextStartCol (("          b);").toList) = some 10 ∧
    get_parenthesis_column tabOutput 2 = some 9 ∧
    ¬ (10 : Nat) = 9 := by
  refine ⟨by decide, by decide, by decide, by decide⟩

/-- C9: with other than 3 positional arguments the wrapper prints usage to
standard error and exits non-zero (1) without touching the file; with 3
arguments it exits 0 on successful completion (saving the result), including
the zero-match no-op save, and exits non-zero (the abort status 134) on a
fatal substitution abort, a load failure, or a save failure, leaving the file
with its pre-run content whenever the save did not happen. -/
theorem c9_cli_contract :
    (∀ args file loadOk saveOk fuel, args.length ≠ 3 →
        mainModel args file loadOk saveOk fuel = some ⟨1, true, file⟩) ∧
    (∀ st rp fn file fuel res, ¬ st.length = 0 → ¬ fn.length = 0 →
        do_substitution fuel st.toList rp.toList file = some (RunOut.ok res) →
        mainModel [st, rp, fn] file true true fuel = some ⟨0, false, res⟩) ∧
    (∀ st rp fn file fuel, ¬ st.length = 0 → ¬ fn.length = 0 →
        findNext file 0 st.toList = none →
        mainModel [st, rp, fn] file true true (fuel + 1) = some ⟨0, false, file⟩) ∧
    (∀ st rp fn file fuel, ¬ st.length = 0 → ¬ fn.length = 0 →
        do_substitution fuel st.toList rp.toList file = some RunOut.aborted →
        mainModel [st, rp, fn] file true true fuel = some ⟨134, false, file⟩) ∧
    (∀ st rp fn file saveOk fuel, ¬ st.length = 0 → ¬ fn.length = 0 →
        mainModel [st, rp, fn] file false saveOk fuel = some ⟨134, false, file⟩) ∧
    (∀ st rp fn file fuel res, ¬ st.length = 0 → ¬ fn.length = 0 →
        do_substitution fuel st.toList rp.toList file = some (RunOut.ok res) →
        mainModel [st, rp, fn] file true false fuel = some ⟨134, false, file⟩) := by
  have hnotor : ∀ (st fn : String), ¬ st.length = 0 → ¬ fn.length = 0 →
      ¬ (st.length = 0 ∨ fn.length = 0) := by
    intro st fn h1 h2 h
    rcases h with h | h
    · exact h1 h
    · exact h2 h
  have hm3 : ∀ (st rp fn : String) (file : List Char) (loadOk saveOk : Bool) (fuel : Nat),
      mainModel [st, rp, fn] file loadOk saveOk fuel =
        (if st.length = 0 ∨ fn.length = 0 then some ⟨134, false, file⟩
        else if loadOk = false then some ⟨134, false, file⟩
        else match do_substitution fuel st.toList rp.toList file with
          | none => none
          | some RunOut.aborted => some ⟨134, false, file⟩
          | some (RunOut.ok buf2) =>
            if saveOk then some ⟨0, false, buf2⟩ else some ⟨134, false, file⟩) :=
    fun _ _ _ _ _ _ _ => rfl
  refine ⟨?_, ?_, ?_, ?_, ?_, ?_⟩
  · intro args file loadOk saveOk fuel hlen
    match args with
    | [] => rfl
    | [a] => rfl
    | [a, b] => rfl
    | [a, b, c] => exact absurd rfl hlen
    | a :: b :: c :: d :: tl => rfl
  · intro st rp fn file fuel res h1 h2 hrun
    rw [hm3, if_neg (hnotor st fn h1 h2), hrun]
    rfl
  · intro st rp fn file fuel h1 h2 hfind
    have hrun : do_substitution (fuel + 1) st.toList rp.toList file
        = some (RunOut.ok file) := by
      unfold do_substitution
      rw [doSubLoop, hfind]
    rw [hm3, if_neg (hnotor st fn h1 h2), hrun]
    rfl
  · intro st rp fn file fuel h1 h2 hrun
    rw [hm3, if_neg (hnotor st fn h1 h2), hrun]
    rfl
  · intro st rp fn file saveOk fuel h1 h2
    rw [hm3, if_neg (hnotor st fn h1 h2)]
    rfl
  · intro st rp fn file fuel res h1 h2 hrun
    rw [hm3, if_neg (hnotor st fn h1 h2), hrun]
    rfl

theorem parenOffset_take_succ_no_nl (l : List Char) (o : Nat)
    (h : parenOffset l = some o) : '\n' ∉ l.take (o + 1) := by
  have hg := parenOffset_get l o h
  have hge : l[o]? = some '(' := by
    rw [← List.get?_eq_getElem?]
    exact hg
  rw [List.take_succ, hge]
  intro hmem
  rcases List.mem_append.1 hmem with h1 | h1
  · exact (parenOffset_take_no_nl l o h _ h1).1 rfl
  · simp at h1

theorem mem_take_mono (l : List Char) (n k : Nat) (hnk : n ≤ k) :
    ∀ c ∈ l.take n, c ∈ l.take k := by
  intro c hc
  have : l.take k = l.take n ++ (l.drop n).take (k - n) := by
    rw [← List.take_add]
    congr 1
    omega
  rw [this]
  exact List.mem_append_left _ hc

theorem forall2_exists_left {α β : Type} {R : α → β → Prop} :
    ∀ {xs : List α} {ys : List β}, List.Forall₂ R xs ys → ∀ b ∈ ys, ∃ a ∈ xs, R a b := by
  intro xs ys h
  induction h with
  | nil => simp
  | @cons x y xs2 ys2 hR hrest ih =>
    intro b hb
    rcases List.mem_cons.1 hb with h1 | h1
    · exact ⟨x, List.mem_cons_self x xs2, h1 ▸ hR⟩
    · obtain ⟨a, ha, hab⟩ := ih b h1
      exact ⟨a, List.mem_cons_of_mem x ha, hab⟩

/-- C4: for a match with an anchor, the realigned lines form exactly the
maximal consecutive run of lines immediately after the match line whose
first-non-whitespace column equals the anchor column; the first line that is
blank or has a different column stops the scan, and it together with every
following line reappears unchanged in the output, which consists of the text
through the match line (with only the match replaced) followed by the
realigned block and the untouched suffix. -/
theorem c4_maximal_block (s r buf : List Char) (m P : Nat) (b2 : List Char) (c2 : Nat)
    (hmatch : matchAt s (buf.drop m) = true)
    (hp : get_parenthesis_column buf (m + s.length) = some P)
    (hstep : replaceStep s r buf m = some (b2, c2)) :
    ∃ pre pre2 post,
      splitLines ((bufAfter s r buf m).drop (lineEnd (bufAfter s r buf m) (m + r.length) + 1))
        = pre ++ post ∧
      List.Forall₂ (fun a b => lineTextStartCol a = some P ∧ adjustLine s r a = some b) pre pre2 ∧
      (∀ l0, post.head? = some l0 → ¬ lineTextStartCol l0 = some P) ∧
      (b2 = (bufAfter s r buf m).take (lineEnd (bufAfter s r buf m) (m + r.length) + 1)
          ++ joinLines (pre2 ++ post)
        ∨ b2 = bufAfter s r buf m ∧ pre = [] ∧ pre2 = []) := by
  obtain ⟨hc2, hcases⟩ := replaceStep_anchor_cases s r buf m P b2 c2 hmatch hp hstep
  rcases hcases with ⟨he, hb⟩ | ⟨he, out, halign, hb⟩
  · refine ⟨[], [], splitLines ((bufAfter s r buf m).drop
        (lineEnd (bufAfter s r buf m) (m + r.length) + 1)), rfl, List.Forall₂.nil, ?_,
      Or.inr ⟨hb, rfl, rfl⟩⟩
    intro l0 hl0
    have hdrop : (bufAfter s r buf m).drop
        (lineEnd (bufAfter s r buf m) (m + r.length) + 1) = [] := by
      apply List.drop_eq_nil_of_le
      have := lineEnd_ge (bufAfter s r buf m) (m + r.length)
      omega
    rw [hdrop] at hl0
    have hl0e : l0 = ([] : List Char) := by
      rw [show splitLines [] = [[]] from rfl] at hl0
      exact (Option.some.inj hl0).symm
    rw [hl0e]
    intro hcontra
    simp [lineTextStartCol, textStartOffset] at hcontra
  · obtain ⟨pre, pre2, post, h1, h2, h3, h4⟩ := alignLines_split s r P _ out halign
    exact ⟨pre, pre2, post, h1, h3, h4, Or.inl (by rw [hb, h2])⟩

set_option maxHeartbeats 4000000 in
/-- Witness for C4 at the small example. -/
theorem c4_witness :
    ∃ pre pre2 post,
      splitLines ((bufAfter exSearch exRepl exInput 0).drop
          (lineEnd (bufAfter exSearch exRepl exInput 0) (0 + exRepl.length) + 1))
        = pre ++ post ∧
      List.Forall₂ (fun a b => lineTextStartCol a = some 3 ∧
        adjustLine exSearch exRepl a = some b) pre pre2 ∧
      (∀ l0, post.head? = some l0 → ¬ lineTextStartCol l0 = some 3) ∧
      (exOutput = (bufAfter exSearch exRepl exInput 0).take
            (lineEnd (bufAfter exSearch exRepl exInput 0) (0 + exRepl.length) + 1)
          ++ joinLines (pre2 ++ post)
        ∨ exOutput = bufAfter exSearch exRepl exInput 0 ∧ pre = [] ∧ pre2 = []) :=
  c4_maximal_block exSearch exRepl exInput 0 3 exOutput 2 (by decide) (by decide) (by decide)

/-- C2, amended: when the search text, the replacement, and the match line's
segment from the match end through the anchoring parenthesis contain no tab
(and search and replacement no newline), every realigned continuation line
ends with its first non-whitespace character at the anchor column of the
`'('` as it stands in the final buffer, and that final anchor column equals
the pre-replacement anchor column plus the codepoint-length delta
`replacement.length - search_text.length`. -/
theorem c2_realigned_columns (s r buf : List Char) (m P : Nat) (b2 : List Char) (c2 : Nat)
    (hm : m + s.length ≤ buf.length)
    (hmatch : matchAt s (buf.drop m) = true)
    (hp : get_parenthesis_column buf (m + s.length) = some P)
    (hs_nl : '\n' ∉ s) (hs_tab : '\t' ∉ s)
    (hr_nl : '\n' ∉ r) (hr_tab : '\t' ∉ r)
    (hline : ∀ ch ∈ (buf.drop (m + s.length)).take (nlOffset (buf.drop (m + s.length))),
      ch ≠ '\t')
    (hstep : replaceStep s r buf m = some (b2, c2)) :
    s.length ≤ P ∧
    get_parenthesis_column b2 c2 = some (P + r.length - s.length) ∧
    ∃ pre pre2 post,
      splitLines ((bufAfter s r buf m).drop (lineEnd (bufAfter s r buf m) (m + r.length) + 1))
        = pre ++ post ∧
      List.Forall₂ (fun a b => lineTextStartCol a = some P ∧ adjustLine s r a = some b) pre pre2 ∧
      (∀ l2 ∈ pre2, lineTextStartCol l2 = some (P + r.length - s.length)) ∧
      (b2 = (bufAfter s r buf m).take (lineEnd (bufAfter s r buf m) (m + r.length) + 1)
          ++ joinLines (pre2 ++ post)
        ∨ b2 = bufAfter s r buf m ∧ pre2 = []) := by
  have hpc := hp
  unfold get_parenthesis_column at hpc
  cases ho : parenOffset (buf.drop (m + s.length)) with
  | none => rw [ho] at hpc; cases hpc
  | some oP =>
  rw [ho] at hpc
  simp only [Option.map_some', Option.some.injEq] at hpc
  obtain ⟨hc2, hcases⟩ := replaceStep_anchor_cases s r buf m P b2 c2 hmatch hp hstep
  have hmle : m ≤ buf.length := by omega
  have f1 : oP < nlOffset (buf.drop (m + s.length)) := parenOffset_lt_nlOffset _ _ ho
  have f2 : nlOffset (buf.drop (m + s.length)) ≤ (buf.drop (m + s.length)).length :=
    nlOffset_le _
  have f3 : (bufAfter s r buf m).drop (m + r.length) = buf.drop (m + s.length) :=
    bufAfter_drop_cursor s r buf m hmle
  have f5 : '\n' ∉ (buf.drop (m + s.length)).take (oP + 1) :=
    parenOffset_take_succ_no_nl _ _ ho
  have f6 : '\t' ∉ (buf.drop (m + s.length)).take (oP + 1) := by
    intro hmem
    exact hline _ (mem_take_mono _ _ _ (by omega) _ hmem) rfl
  have f7 : ((buf.drop (m + s.length)).take (oP + 1)).length = oP + 1 := by
    rw [List.length_take, inf_eq_left.mpr (by omega :
      oP + 1 ≤ (buf.drop (m + s.length)).length)]
  have f8 : (buf.drop m).take s.length = s := (matchAt_take s _ hmatch).1
  have g2 : (buf.drop m).take (s.length + (oP + 1))
      = s ++ (buf.drop (m + s.length)).take (oP + 1) := by
    rw [List.take_add, f8, List.drop_drop]
  have g1 : buf.take (m + s.length + oP + 1)
      = buf.take m ++ (s ++ (buf.drop (m + s.length)).take (oP + 1)) := by
    rw [show m + s.length + oP + 1 = m + (s.length + (oP + 1)) by omega, List.take_add, g2]
  have hnl_smid : '\n' ∉ s ++ (buf.drop (m + s.length)).take (oP + 1) := by
    intro hmem
    rcases List.mem_append.1 hmem with h1 | h1
    · exact hs_nl h1
    · exact f5 h1
  have htab_smid : ∀ ch ∈ s ++ (buf.drop (m + s.length)).take (oP + 1), ch ≠ '\t' := by
    intro ch hmem heq
    subst heq
    rcases List.mem_append.1 hmem with h1 | h1
    · exact hs_tab h1
    · exact f6 h1
  have g3 : P = vcolFold 0 (afterLastNl (buf.take m)) + (s.length + (oP + 1)) := by
    rw [← hpc]
    unfold visualColumn
    rw [g1, afterLastNl_append _ _ hnl_smid, vcolFold_append,
      vcolFold_no_tab _ _ htab_smid, List.length_append, f7]
  obtain ⟨hc2b, g4⟩ := replaceStep_cursor_take s r buf m b2 c2 hm hstep
  subst hc2b
  have hcases2 : parenOffset (b2.drop (m + r.length)) = some oP ∧
      (b2.drop (m + r.length)).take (oP + 1) = (buf.drop (m + s.length)).take (oP + 1) := by
    rcases hcases with ⟨he, hb⟩ | ⟨he, out, halign, hb⟩
    · rw [hb, f3]
      exact ⟨ho, rfl⟩
    · have hlenBA : (bufAfter s r buf m).length
          = (m + r.length) + (buf.drop (m + s.length)).length := by
        rw [bufAfter_def, List.length_append, prefix_len r buf m hmle]
      have he2 : lineEnd (bufAfter s r buf m) (m + r.length)
          = (m + r.length) + nlOffset (buf.drop (m + s.length)) := by
        unfold lineEnd
        rw [f3]
      have hKlt : nlOffset (buf.drop (m + s.length)) + 1
          ≤ (buf.drop (m + s.length)).length := by
        rw [he2, hlenBA] at he
        omega
      have hb2drop : b2.drop (m + r.length)
          = (buf.drop (m + s.length)).take (nlOffset (buf.drop (m + s.length)) + 1)
            ++ joinLines out := by
        rw [hb, List.drop_append_eq_append_drop]
        have hlen1 : ((bufAfter s r buf m).take
            (lineEnd (bufAfter s r buf m) (m + r.length) + 1)).length
            = lineEnd (bufAfter s r buf m) (m + r.length) + 1 := by
          rw [List.length_take, inf_eq_left.mpr (le_of_lt he)]
        have hle : m + r.length ≤ lineEnd (bufAfter s r buf m) (m + r.length) :=
          lineEnd_ge _ _
        rw [hlen1, List.drop_take, f3,
          (by omega : m + r.length - (lineEnd (bufAfter s r buf m) (m + r.length) + 1) = 0),
          List.drop_zero,
          (show lineEnd (bufAfter s r buf m) (m + r.length) + 1 - (m + r.length)
            = nlOffset (buf.drop (m + s.length)) + 1 by rw [he2]; omega)]
      constructor
      · rw [hb2drop]
        exact parenOffset_append_left _ _ _ (parenOffset_take _ _ _ ho (by omega))
      · rw [hb2drop, List.take_append_eq_append_take]
        have hlen2 : ((buf.drop (m + s.length)).take
            (nlOffset (buf.drop (m + s.length)) + 1)).length
            = nlOffset (buf.drop (m + s.length)) + 1 := by
          rw [List.length_take, inf_eq_left.mpr hKlt]
        rw [hlen2,
          (by omega : oP + 1 - (nlOffset (buf.drop (m + s.length)) + 1) = 0),
          List.take_zero, List.append_nil, List.take_take,
          inf_eq_left.mpr (by omega : oP + 1 ≤ nlOffset (buf.drop (m + s.length)) + 1)]
  obtain ⟨hpo2, htk1⟩ := hcases2
  have htk : b2.take (m + r.length + oP + 1)
      = (buf.take m ++ r) ++ (buf.drop (m + s.length)).take (oP + 1) := by
    rw [show m + r.length + oP + 1 = (m + r.length) + (oP + 1) by omega,
      List.take_add, g4, htk1]
  have hnl_rmid : '\n' ∉ r ++ (buf.drop (m + s.length)).take (oP + 1) := by
    intro hmem
    rcases List.mem_append.1 hmem with h1 | h1
    · exact hr_nl h1
    · exact f5 h1
  have htab_rmid : ∀ ch ∈ r ++ (buf.drop (m + s.length)).take (oP + 1), ch ≠ '\t' := by
    intro ch hmem heq
    subst heq
    rcases List.mem_append.1 hmem with h1 | h1
    · exact hr_tab h1
    · exact f6 h1
  have hQ : get_parenthesis_column b2 (m + r.length)
      = some (vcolFold 0 (afterLastNl (buf.take m)) + (r.length + (oP + 1))) := by
    unfold get_parenthesis_column
    rw [hpo2]
    simp only [Option.map_some', Option.some.injEq]
    unfold visualColumn
    rw [htk, List.append_assoc, afterLastNl_append _ _ hnl_rmid, vcolFold_append,
      vcolFold_no_tab _ _ htab_rmid, List.length_append, f7]
  refine ⟨by omega, ?_, ?_⟩
  · rw [hQ]
    congr 1
    omega
  · rcases hcases with ⟨he, hb⟩ | ⟨he, out, halign, hb⟩
    · exact ⟨[], [], splitLines ((bufAfter s r buf m).drop
          (lineEnd (bufAfter s r buf m) (m + r.length) + 1)), rfl, List.Forall₂.nil,
        by simp, Or.inr ⟨hb, rfl⟩⟩
    · obtain ⟨pre, pre2, post, h1, h2, h3, h4⟩ := alignLines_split s r P _ out halign
      refine ⟨pre, pre2, post, h1, h3, ?_, Or.inl (by rw [hb, h2])⟩
      intro l2 hl2
      obtain ⟨a, ha, hcolA, hadjA⟩ := forall2_exists_left h3 l2 hl2
      exact (adjustLine_col s r a l2 P hcolA hadjA).2

set_option maxHeartbeats 4000000 in
/-- Witness for the amended C2 at the tab-free small example: the realigned
line ends at column 4, the anchor column of the final buffer. -/
theorem c2_witness :
    exSearch.length ≤ 3 ∧
    get_parenthesis_column exOutput 2 = some (3 + exRepl.length - exSearch.length) ∧
    ∃ pre pre2 post,
      splitLines ((bufAfter exSearch exRepl exInput 0).drop
          (lineEnd (bufAfter exSearch exRepl exInput 0) (0 + exRepl.length) + 1))
        = pre ++ post ∧
      List.Forall₂ (fun a b => lineTextStartCol a = some 3 ∧
        adjustLine exSearch exRepl a = some b) pre pre2 ∧
      (∀ l2 ∈ pre2, lineTextStartCol l2 = some (3 + exRepl.length - exSearch.length)) ∧
      (exOutput = (bufAfter exSearch exRepl exInput 0).take
            (lineEnd (bufAfter exSearch exRepl exInput 0) (0 + exRepl.length) + 1)
          ++ joinLines (pre2 ++ post)
        ∨ exOutput = bufAfter exSearch exRepl exInput 0 ∧ pre2 = []) :=
  c2_realigned_columns exSearch exRepl exInput 0 3 exOutput 2 (by decide) (by decide)
    (by decide) (by decide) (by decide) (by decide) (by decide) (by decide) (by decide)

set_option maxHeartbeats 2000000 in
/-- Witness for C9: the usage branch at an empty argument list, and a
successful run on the `foo`/`longfoo` file. -/
theorem c9_witness :
    mainModel [] npInput true true 2 = some ⟨1, true, npInput⟩ ∧
    mainModel [("foo"), ("longfoo"), ("f.c")] npInput true true 2
      = some ⟨0, false, npOutput⟩ :=
  ⟨c9_cli_contract.1 [] npInput true true 2 (by decide),
   c9_cli_contract.2.1 ("foo") ("longfoo") ("f.c") npInput 2 npOutput
     (by decide) (by decide) (by decide)⟩

end LineupSub
